import Mathlib

/-!
Formal model of redditscore/models/fasttext.py (RedditScore project).

The file under verification is a thin adapter around the external fastText
library: a corpus serializer (data_to_temp), an sklearn-style classifier
wrapper (FastTextClassifier) and an orchestrating model (FastTextModel).

Modelling choices:
  - Python strings are lists of characters (Str).
  - The file system is a map from temp-path ids to contents plus a fresh-id
    counter, capturing the guarantees of tempfile.mkstemp (fresh path,
    empty file) and of os.remove.
  - The external fastText library (train_supervised, model.predict,
    model.save_softmax) is an opaque backend: its behaviour enters theorems
    as hypotheses matching its documented interface.
  - Probabilities (Python floats) are modelled as rationals; the only
    arithmetic the adapter performs on them is the fillna constant 1e-10.
  - A Python exception is modelled as an error value; operations that can
    raise return an Option or carry an Except component.
-/

/-- Python strings, modelled as lists of characters. -/
abbrev Str := List Char

/-- The newline character. -/
def nl : Char := Char.ofNat 10

/-- Conversion of Lean string literals, used for concrete instances. -/
def strLit (s : String) : Str := s.toList

/-- Python expression ' '.join(doc): tokens joined by single spaces. -/
def joinSp (doc : List Str) : Str := List.intercalate [' '] doc

/-- File system state: allocated temp files (path id, content) and the next
fresh id.  Path ids stand for the unique paths tempfile.mkstemp returns. -/
structure FS where
  files : List (Nat × Str)
  nextId : Nat

/-- Freshness invariant of the file system: every allocated path id is below
the counter, so mkstemp never collides with an existing file. -/
def FS.WF (fs : FS) : Prop := ∀ e ∈ fs.files, e.1 < fs.nextId

/-- tempfile.mkstemp: allocates a fresh path with empty content and returns
the new state together with the path. -/
def mkstemp (fs : FS) : FS × Nat :=
  (⟨fs.files ++ [(fs.nextId, [])], fs.nextId + 1⟩, fs.nextId)

/-- Appending a string to the file at path p (a write on an open handle). -/
def fsWrite (fs : FS) (p : Nat) (s : Str) : FS :=
  ⟨fs.files.map (fun e => if e.1 = p then (e.1, e.2 ++ s) else e), fs.nextId⟩

/-- Reading the content of the file at path p, none if absent. -/
def fsRead (fs : FS) (p : Nat) : Option Str :=
  Option.map Prod.snd (fs.files.find? (fun e => decide (e.1 = p)))

/-- os.remove: deletes the file at path p. -/
def fsRemove (fs : FS) (p : Nat) : FS :=
  ⟨fs.files.filter (fun e => decide (e.1 ≠ p)), fs.nextId⟩

/-- The line data_to_temp writes for document index i: with labels supplied,
label prefix ++ y[i] ++ one space ++ space-joined tokens of X[i]; without
labels, just the joined tokens (fasttext.py lines 30-33). -/
def docLine (X : List (List Str)) (label : Str) (y : Option (List Str)) (i : Nat) : Str :=
  match y with
  | some ys => label ++ ys.getD i [] ++ [' '] ++ joinSp (X.getD i [])
  | none => joinSp (X.getD i [])

/-- Content accumulated by the write loop of data_to_temp: for i in
range(len(X)), write the document line followed by a newline. -/
def corpusContent (X : List (List Str)) (label : Str) (y : Option (List Str)) : Str :=
  (List.range X.length).foldl (fun acc i => acc ++ (docLine X label y i ++ [nl])) []

/-- data_to_temp (fasttext.py lines 25-35): make a temp file, write one line
per document into it, return the new file system and the path. -/
def data_to_temp (fs : FS) (X : List (List Str)) (label : Str) (y : Option (List Str)) :
    FS × Nat :=
  (fsWrite (mkstemp fs).1 (mkstemp fs).2 (corpusContent X label y), (mkstemp fs).2)

/-- Split of a character list at every occurrence of c; always returns one
more segment than there are occurrences of c. -/
def splitOnChar (c : Char) : Str → List Str
  | [] => [[]]
  | a :: rest =>
    match splitOnChar c rest with
    | [] => [[]]
    | s :: ss => if a = c then [] :: s :: ss else (a :: s) :: ss

/-- Python str.splitlines for newline-only text: the trailing segment after a
final newline does not count as a line. -/
def pyLines (s : Str) : List Str :=
  if s = [] then []
  else
    match (splitOnChar nl s).getLast? with
    | some [] => (splitOnChar nl s).dropLast
    | _ => splitOnChar nl s

/-- Python str.split() restricted to space-separated text: splits on spaces
and drops empty fields. -/
def pySplitSp (s : Str) : List Str :=
  (splitOnChar ' ' s).filter (fun t => decide (t ≠ []))

theorem foldl_append_join {α : Type} (g : α → Str) (l : List α) (acc : Str) :
    l.foldl (fun a i => a ++ g i) acc = acc ++ (l.map g).flatten := by
  induction l generalizing acc with
  | nil => simp
  | cons x xs ih => simp [List.foldl_cons, ih, List.append_assoc]

theorem corpusContent_eq_join (X : List (List Str)) (label : Str) (y : Option (List Str)) :
    corpusContent X label y =
      ((List.range X.length).map (fun i => docLine X label y i ++ [nl])).flatten := by
  unfold corpusContent
  rw [foldl_append_join]
  simp

theorem splitOnChar_cons (c a : Char) (rest : Str) :
    splitOnChar c (a :: rest) =
      match splitOnChar c rest with
      | [] => [[]]
      | s :: ss => if a = c then [] :: s :: ss else (a :: s) :: ss := rfl

theorem splitOnChar_ne_nil (c : Char) (s : Str) : splitOnChar c s ≠ [] := by
  cases s with
  | nil => simp [splitOnChar]
  | cons a rest =>
    rw [splitOnChar_cons]
    cases h : splitOnChar c rest with
    | nil => simp
    | cons s ss =>
      by_cases hac : a = c <;> simp [hac]

theorem splitOnChar_cons_self (c : Char) (s : Str) :
    splitOnChar c (c :: s) = [] :: splitOnChar c s := by
  rw [splitOnChar_cons]
  cases h : splitOnChar c s with
  | nil => exact absurd h (splitOnChar_ne_nil c s)
  | cons t ts => simp

theorem splitOnChar_append_of_not_mem (c : Char) (t s : Str) (hc : c ∉ t) :
    splitOnChar c (t ++ s) =
      (t ++ (splitOnChar c s).headI) :: (splitOnChar c s).tail := by
  induction t with
  | nil =>
    simp only [List.nil_append]
    cases h : splitOnChar c s with
    | nil => exact absurd h (splitOnChar_ne_nil c s)
    | cons u us => simp
  | cons a t ih =>
    have hac : a ≠ c := by
      intro h; exact hc (h ▸ List.mem_cons_self a t)
    have hct : c ∉ t := fun h => hc (List.mem_cons_of_mem a h)
    have ht := ih hct
    simp only [List.cons_append]
    rw [splitOnChar_cons, ht]
    simp [hac]

theorem splitOnChar_of_not_mem (c : Char) (t : Str) (hc : c ∉ t) :
    splitOnChar c t = [t] := by
  have := splitOnChar_append_of_not_mem c t [] hc
  simpa [splitOnChar] using this

/-- Splitting the concatenation of newline-terminated lines on the newline
character recovers the lines, followed by one empty trailing segment. -/
theorem splitOnChar_join_lines (c : Char) (lines : List Str)
    (hc : ∀ l ∈ lines, c ∉ l) :
    splitOnChar c ((lines.map (fun l => l ++ [c])).flatten) = lines ++ [[]] := by
  induction lines with
  | nil => simp [splitOnChar]
  | cons l rest ih =>
    have hl : c ∉ l := hc l (List.mem_cons_self l rest)
    have hrest : ∀ x ∈ rest, c ∉ x := fun x hx => hc x (List.mem_cons_of_mem l hx)
    have hsplit := ih hrest
    simp only [List.map_cons, List.flatten_cons, List.append_assoc, List.singleton_append]
    rw [splitOnChar_append_of_not_mem c l _ hl]
    rw [splitOnChar_cons_self, hsplit]
    cases rest <;> simp

theorem fsRead_fsWrite_self (fs : FS) (p : Nat) (s : Str) :
    fsRead (fsWrite fs p s) p = Option.map (fun c => c ++ s) (fsRead fs p) := by
  obtain ⟨l, n⟩ := fs
  simp only [fsRead, fsWrite]
  induction l with
  | nil => rfl
  | cons e rest ih =>
    by_cases he : e.1 = p
    · simp [List.find?_cons, he]
    · simpa [List.find?_cons, he] using ih

theorem fsRead_mkstemp (fs : FS) (hwf : FS.WF fs) :
    fsRead (mkstemp fs).1 (mkstemp fs).2 = some [] := by
  obtain ⟨l, n⟩ := fs
  simp only [mkstemp, fsRead]
  have hnone : l.find? (fun e => decide (e.1 = n)) = none := by
    apply List.find?_eq_none.mpr
    intro e he
    have : e.1 < n := hwf e he
    simpa using Nat.ne_of_lt this
  rw [List.find?_append, hnone]
  simp

theorem fsRead_fsRemove_self (fs : FS) (p : Nat) :
    fsRead (fsRemove fs p) p = none := by
  simp only [fsRead, fsRemove]
  have hnone : (fs.files.filter (fun e => decide (e.1 ≠ p))).find?
      (fun e => decide (e.1 = p)) = none := by
    apply List.find?_eq_none.mpr
    intro e he
    have hne : e.1 ≠ p := by simpa using List.of_mem_filter he
    simpa using hne
  rw [hnone]
  rfl

theorem fsRemove_fsWrite_mkstemp (fs : FS) (s : Str) (hwf : FS.WF fs) :
    (fsRemove (fsWrite (mkstemp fs).1 (mkstemp fs).2 s) (mkstemp fs).2).files = fs.files := by
  obtain ⟨l, n⟩ := fs
  simp only [mkstemp, fsWrite, fsRemove, List.map_append, List.filter_append]
  have hlt : ∀ e ∈ l, e.1 < n := hwf
  have h₁ : l.map (fun e => if e.1 = n then (e.1, e.2 ++ s) else e) = l.map id := by
    apply List.map_congr_left
    intro e he
    have : e.1 ≠ n := Nat.ne_of_lt (hlt e he)
    simp [this]
  have h₂ : l.filter (fun e => decide (e.1 ≠ n)) = l := by
    apply List.filter_eq_self.mpr
    intro e he
    have : e.1 ≠ n := Nat.ne_of_lt (hlt e he)
    simpa using this
  rw [h₁, List.map_id, h₂]
  simp

theorem fsRead_data_to_temp (fs : FS) (X : List (List Str)) (label : Str)
    (y : Option (List Str)) (hwf : FS.WF fs) :
    fsRead (data_to_temp fs X label y).1 (data_to_temp fs X label y).2 =
      some (corpusContent X label y) := by
  simp only [data_to_temp]
  rw [fsRead_fsWrite_self, fsRead_mkstemp fs hwf]
  rfl

theorem joinSp_cons_cons (t u : Str) (r : List Str) :
    joinSp (t :: u :: r) = t ++ ' ' :: joinSp (u :: r) := by
  simp [joinSp, List.intercalate, List.intersperse]

theorem joinSp_singleton (t : Str) : joinSp [t] = t := by
  simp [joinSp, List.intercalate]

theorem mem_joinSp (c : Char) (d : List Str) (h : c ∈ joinSp d) :
    c = ' ' ∨ ∃ t ∈ d, c ∈ t := by
  induction d with
  | nil => simp [joinSp, List.intercalate] at h
  | cons t r ih =>
    cases r with
    | nil =>
      rw [joinSp_singleton] at h
      exact Or.inr ⟨t, List.mem_cons_self t [], h⟩
    | cons u r' =>
      rw [joinSp_cons_cons] at h
      rcases List.mem_append.mp h with h₁ | h₂
      · exact Or.inr ⟨t, List.mem_cons_self t (u :: r'), h₁⟩
      · rcases List.mem_cons.mp h₂ with hc | h₃
        · exact Or.inl hc
        · rcases ih h₃ with hc | ⟨v, hv, hcv⟩
          · exact Or.inl hc
          · exact Or.inr ⟨v, List.mem_cons_of_mem t hv, hcv⟩

theorem getD_mem {α : Type} (l : List α) (i : Nat) (d : α) (h : i < l.length) :
    l.getD i d ∈ l := by
  rw [List.getD_eq_getElem l d h]
  exact List.getElem_mem h

theorem range_map_getD {α β : Type} (l : List α) (d : α) (f : α → β) :
    (List.range l.length).map (fun i => f (l.getD i d)) = l.map f := by
  apply List.ext_getElem (by simp)
  intro i h₁ h₂
  simp only [List.getElem_map, List.getElem_range]
  rw [List.getD_eq_getElem l d (by simpa using h₂)]

/-- C1: data_to_temp writes a text file with exactly one line per document:
line i is the label prefix, then y[i], one space, and the space-joined tokens
of X[i] when the label array y is supplied, and just the space-joined tokens
when it is absent; the returned path addresses exactly that file.  Lines are
recovered by splitting the written content at newlines (the final segment
after the trailing newline is empty); the hypotheses state that labels and
tokens carry no embedded newline and that y, when supplied, is parallel to X. -/
theorem c1_data_to_temp_one_line_per_document (fs : FS) (X : List (List Str))
    (label : Str) (y : Option (List Str)) (hwf : FS.WF fs)
    (hlen : ∀ ys ∈ y, List.length ys = X.length)
    (hX : ∀ d ∈ X, ∀ t ∈ d, nl ∉ t)
    (hlabel : nl ∉ label)
    (hy : ∀ ys ∈ y, ∀ s ∈ ys, nl ∉ s) :
    ∃ content,
      fsRead (data_to_temp fs X label y).1 (data_to_temp fs X label y).2 = some content ∧
      splitOnChar nl content =
        ((List.range X.length).map (fun i =>
          match y with
          | some ys => label ++ ys.getD i [] ++ [' '] ++ joinSp (X.getD i [])
          | none => joinSp (X.getD i []))) ++ [[]] := by
  refine ⟨corpusContent X label y, fsRead_data_to_temp fs X label y hwf, ?_⟩
  rw [corpusContent_eq_join]
  have hmap : (List.range X.length).map (fun i => docLine X label y i ++ [nl]) =
      ((List.range X.length).map (docLine X label y)).map (fun l => l ++ [nl]) := by
    simp [List.map_map, Function.comp]
  rw [hmap, splitOnChar_join_lines]
  · refine congrArg (fun z => z ++ [[]]) (List.map_congr_left ?_)
    intro i _
    cases y <;> rfl
  · intro l hl
    rcases List.mem_map.mp hl with ⟨i, hi, rfl⟩
    have hiX : i < X.length := List.mem_range.mp hi
    cases y with
    | none =>
      intro hmem
      rcases mem_joinSp nl _ hmem with hsp | ⟨t, ht, hct⟩
      · exact absurd hsp (by decide)
      · exact hX _ (getD_mem X i [] hiX) t ht hct
    | some ys =>
      intro hmem
      simp only [docLine, List.append_assoc, List.mem_append] at hmem
      rcases hmem with hm | hm | hm | hm
      · exact hlabel hm
      · have hylen : ys.length = X.length := hlen ys rfl
        exact hy ys rfl _ (getD_mem ys i [] (by omega)) hm
      · exact absurd hm (by decide)
      · rcases mem_joinSp nl _ hm with hsp | ⟨t, ht, hct⟩
        · exact absurd hsp (by decide)
        · exact hX _ (getD_mem X i [] hiX) t ht hct

/-- Witness for C1: a two-document corpus with labels, checked concretely. -/
theorem c1_witness :
    ∃ content,
      fsRead (data_to_temp ⟨[], 0⟩ [[strLit ("ab"), strLit ("c")], [strLit ("d")]]
          (strLit ("__label__")) (some [strLit ("1"), strLit ("2")])).1
        (data_to_temp ⟨[], 0⟩ [[strLit ("ab"), strLit ("c")], [strLit ("d")]]
          (strLit ("__label__")) (some [strLit ("1"), strLit ("2")])).2 = some content ∧
      splitOnChar nl content =
        ((List.range ([[strLit ("ab"), strLit ("c")], [strLit ("d")]] :
            List (List Str)).length).map (fun i =>
          match some [strLit ("1"), strLit ("2")] with
          | some ys => strLit ("__label__") ++ ys.getD i [] ++ [' '] ++
              joinSp (([[strLit ("ab"), strLit ("c")], [strLit ("d")]] :
                List (List Str)).getD i [])
          | none => joinSp (([[strLit ("ab"), strLit ("c")], [strLit ("d")]] :
                List (List Str)).getD i []))) ++ [[]] :=
  c1_data_to_temp_one_line_per_document ⟨[], 0⟩
    [[strLit ("ab"), strLit ("c")], [strLit ("d")]] (strLit ("__label__"))
    (some [strLit ("1"), strLit ("2")])
    (by intro e he; simp at he)
    (by decide) (by decide) (by decide) (by decide)

theorem joinSp_cons_cons' (t u : Str) (r : List Str) :
    joinSp (t :: u :: r) = t ++ [' '] ++ joinSp (u :: r) := by
  rw [joinSp_cons_cons]
  simp

theorem splitOnChar_joinSp (d : List Str) (hne : d ≠ [])
    (h : ∀ t ∈ d, ' ' ∉ t) : splitOnChar ' ' (joinSp d) = d := by
  induction d with
  | nil => exact absurd rfl hne
  | cons t r ih =>
    cases r with
    | nil =>
      rw [joinSp_singleton]
      exact splitOnChar_of_not_mem ' ' t (h t (List.mem_cons_self t []))
    | cons u r' =>
      have ht : ' ' ∉ t := h t (List.mem_cons_self t (u :: r'))
      have hr : ∀ x ∈ u :: r', ' ' ∉ x := fun x hx => h x (List.mem_cons_of_mem t hx)
      rw [joinSp_cons_cons, splitOnChar_append_of_not_mem ' ' t _ ht,
        splitOnChar_cons_self, ih (by simp) hr]
      simp

theorem pyLines_join (lines : List Str) (hc : ∀ l ∈ lines, nl ∉ l) :
    pyLines ((lines.map (fun l => l ++ [nl])).flatten) = lines := by
  cases lines with
  | nil => rfl
  | cons l r =>
    have hsplit := splitOnChar_join_lines nl (l :: r) hc
    have hne : (((l :: r).map (fun x => x ++ [nl])).flatten) ≠ [] := by
      simp
    rw [pyLines, if_neg hne, hsplit, List.getLast?_concat]
    show ((l :: r) ++ [[]]).dropLast = l :: r
    rw [List.dropLast_concat]

theorem pySplitSp_joinSp (d : List Str) (hne : ∀ t ∈ d, t ≠ [])
    (hsp : ∀ t ∈ d, ' ' ∉ t) : pySplitSp (joinSp d) = d := by
  cases d with
  | nil => rfl
  | cons t r =>
    rw [pySplitSp, splitOnChar_joinSp (t :: r) (by simp) hsp]
    apply List.filter_eq_self.mpr
    intro u hu
    simpa using hne u hu

/-- C7: serializing a corpus of documents whose tokens are nonempty strings of
printable ASCII characters other than the space (code points strictly between
32 and 127) with data_to_temp and no labels, then splitting the written text
into lines and each line into space-separated fields, recovers exactly the
original token sequences in order. -/
theorem c7_data_to_temp_roundtrip (fs : FS) (X : List (List Str)) (label : Str)
    (hwf : FS.WF fs)
    (htok : ∀ d ∈ X, ∀ t ∈ d, t ≠ [] ∧ ∀ c ∈ t, 32 < c.toNat ∧ c.toNat < 127) :
    ∃ content,
      fsRead (data_to_temp fs X label none).1 (data_to_temp fs X label none).2 =
        some content ∧
      (pyLines content).map pySplitSp = X := by
  refine ⟨corpusContent X label none, fsRead_data_to_temp fs X label none hwf, ?_⟩
  rw [corpusContent_eq_join]
  have hnotsp : ∀ d ∈ X, ∀ t ∈ d, ' ' ∉ t := by
    intro d hd t ht hsp
    have h₁ := ((htok d hd t ht).2 ' ' hsp).1
    have h₂ : Char.toNat ' ' = 32 := by decide
    omega
  have hnotnl : ∀ d ∈ X, ∀ t ∈ d, nl ∉ t := by
    intro d hd t ht hm
    have h₁ := ((htok d hd t ht).2 nl hm).1
    have h₂ : nl.toNat = 10 := by decide
    omega
  have hlines : (List.range X.length).map (fun i => docLine X label none i ++ [nl]) =
      ((X.map joinSp).map (fun l => l ++ [nl])) := by
    have : (List.range X.length).map (fun i => docLine X label none i ++ [nl]) =
        (List.range X.length).map (fun i => (fun d => joinSp d ++ [nl]) (X.getD i [])) := by
      apply List.map_congr_left
      intro i _
      rfl
    rw [this, range_map_getD X [] (fun d => joinSp d ++ [nl])]
    simp [List.map_map, Function.comp]
  rw [hlines, pyLines_join]
  · rw [List.map_map]
    have : X.map (pySplitSp ∘ joinSp) = X.map id := by
      apply List.map_congr_left
      intro d hd
      have : pySplitSp (joinSp d) = d :=
        pySplitSp_joinSp d (fun t ht => (htok d hd t ht).1) (hnotsp d hd)
      simpa using this
    simpa using this
  · intro l hl
    rcases List.mem_map.mp hl with ⟨d, hd, rfl⟩
    intro hm
    rcases mem_joinSp nl d hm with hsp | ⟨t, ht, hct⟩
    · exact absurd hsp (by decide)
    · exact hnotnl d hd t ht hct

/-- Witness for C7: a concrete two-document ASCII corpus round-trips. -/
theorem c7_witness :
    ∃ content,
      fsRead (data_to_temp ⟨[], 0⟩ [[strLit ("ab"), strLit ("c")], [strLit ("d")]]
          (strLit ("__label__")) none).1
        (data_to_temp ⟨[], 0⟩ [[strLit ("ab"), strLit ("c")], [strLit ("d")]]
          (strLit ("__label__")) none).2 = some content ∧
      (pyLines content).map pySplitSp = [[strLit ("ab"), strLit ("c")], [strLit ("d")]] :=
  c7_data_to_temp_roundtrip ⟨[], 0⟩ [[strLit ("ab"), strLit ("c")], [strLit ("d")]]
    (strLit ("__label__")) (by intro e he; simp at he) (by decide)

/-- Opaque handle of a trained fastText model: predictRaw docs k is the raw
batch answer of model.predict(docs, k), the per-document candidate-label
lists and the parallel per-document probability lists. -/
structure ExtModel where
  predictRaw : List Str → Nat → List (List Str) × List (List ℚ)

/-- Configuration and state of FastTextClassifier (fasttext.py lines 40-76):
the hyperparameters are stored verbatim and handed to the external trainer;
_model and _num_classes are the mutable state, both None before any fit. -/
structure FastTextClassifier where
  lr : ℚ
  dim : Nat
  ws : Nat
  epoch : Nat
  minCount : Nat
  minCountLabel : Nat
  minn : Nat
  maxn : Nat
  neg : Nat
  wordNgrams : Nat
  loss : Str
  bucket : Nat
  thread : Nat
  lrUpdateRate : Nat
  t : ℚ
  label : Str
  verbose : Nat
  _model : Option ExtModel
  _num_classes : Option Nat

/-- The constructor of FastTextClassifier: stores every hyperparameter and
initializes _model and _num_classes to None (fasttext.py lines 57-76). -/
def FastTextClassifier.mkNew (lr : ℚ) (dim ws epoch minCount minCountLabel minn maxn neg
    wordNgrams : Nat) (loss : Str) (bucket thread lrUpdateRate : Nat) (t : ℚ)
    (label : Str) (verbose : Nat) : FastTextClassifier :=
  ⟨lr, dim, ws, epoch, minCount, minCountLabel, minn, maxn, neg, wordNgrams, loss,
    bucket, thread, lrUpdateRate, t, label, verbose, none, none⟩

/-- External trainer entry point fastText.train_supervised: receives the full
configuration and the content of the corpus file whose path it is handed, and
either returns a trained model handle or raises. -/
abbrev TrainFun := FastTextClassifier → Str → Except Unit ExtModel

/-- numpy.unique: the sorted list of the distinct values, in the
lexicographic order on strings. -/
def np_unique (y : List Str) : List Str :=
  List.insertionSort (fun a b => a ≤ b) y.dedup

/-- FastTextClassifier.fit (fasttext.py lines 78-106): serialize X and y to a
temp corpus file with the configured label marker, set _num_classes to the
number of distinct labels, call the external trainer on the file, delete the
file and store the handle.  The Except component records whether the external
call raised; on error, the mutations already performed (the _num_classes
write and the corpus file) persist, exactly as in Python, and _model keeps
its previous value. -/
def FastTextClassifier.fit (train : TrainFun) (clf : FastTextClassifier) (fs : FS)
    (X : List (List Str)) (y : List Str) :
    FastTextClassifier × FS × Except Unit Unit :=
  let path := (data_to_temp fs X clf.label (some y)).2
  let fs₁ := (data_to_temp fs X clf.label (some y)).1
  let clf₁ := { clf with _num_classes := some (np_unique y).length }
  match train clf ((fsRead fs₁ path).getD []) with
  | Except.error e => (clf₁, fs₁, Except.error e)
  | Except.ok m => ({ clf₁ with _model := some m }, fsRemove fs₁ path, Except.ok ())

/-- FastTextClassifier.predict (fasttext.py lines 108-114): join each document
with single spaces, take the labels component of the external predict call
with k = 1, keep each document's first candidate and drop its first
len(label) characters.  The value none models the exception Python raises
when _model is None (never fitted) or when some candidate list is empty. -/
def FastTextClassifier.predict (clf : FastTextClassifier) (X : List (List Str)) :
    Option (List Str) :=
  match clf._model with
  | none => none
  | some m =>
    let docs := X.map joinSp
    let predictions := (m.predictRaw docs 1).1
    predictions.mapM (fun pred => (pred.head?).map (fun s => s.drop clf.label.length))

/-- One Python dict assignment d[k] = v on an insertion-ordered association
list: an existing key keeps its position and receives the new value, a new
key is appended at the end. -/
def dictUpdate (d : List (Str × ℚ)) (k : Str) (v : ℚ) : List (Str × ℚ) :=
  if (d.map Prod.fst).contains k then
    d.map (fun p => if p.1 = k then (p.1, v) else p)
  else d ++ [(k, v)]

/-- The Python dict comprehension over a list of key-value pairs. -/
def dictOf (ps : List (Str × ℚ)) : List (Str × ℚ) :=
  ps.foldl (fun d p => dictUpdate d p.1 p.2) []

/-- Dictionary lookup, none when the key is absent. -/
def dictGet (d : List (Str × ℚ)) (k : Str) : Option ℚ :=
  Option.map Prod.snd (d.find? (fun p => decide (p.1 = k)))

/-- Key discovery step of pandas: append a key not seen before. -/
def addCol (acc : List Str) (k : Str) : List Str :=
  if acc.contains k then acc else acc ++ [k]

/-- Column set of pd.DataFrame(list of dicts): the union of the keys across
the dicts, in first-appearance order. -/
def dfColumns (dicts : List (List (Str × ℚ))) : List Str :=
  dicts.foldl (fun acc d => (d.map Prod.fst).foldl addCol acc) []

/-- The fillna floor constant 1e-10 of predict_proba. -/
def floorProb : ℚ := 1 / 10000000000

/-- A pandas DataFrame: the column labels and the row-major entries. -/
structure Frame where
  cols : List Str
  rows : List (List ℚ)

/-- pd.DataFrame(dicts).fillna(c): columns are the key union in discovery
order, each row lists its dict's values in column order with missing keys
filled by the constant c. -/
def dataFrameFillna (dicts : List (List (Str × ℚ))) (c : ℚ) : Frame :=
  ⟨dfColumns dicts,
    dicts.map (fun d => (dfColumns dicts).map (fun k => (dictGet d k).getD c))⟩

/-- FastTextClassifier.predict_proba (fasttext.py lines 116-126): join each
document with spaces, call the external predict with k = _num_classes, pair
the per-document label and probability lists (the zip of the two components),
build one dict per document with the label marker stripped from each key, and
assemble pd.DataFrame(...).fillna(1e-10).  The value none models the
exception Python raises when the model was never fitted. -/
def FastTextClassifier.predict_proba (clf : FastTextClassifier) (X : List (List Str)) :
    Option Frame :=
  match clf._model, clf._num_classes with
  | some m, some k =>
    let docs := X.map joinSp
    let raw := m.predictRaw docs k
    let predictions := List.zip raw.1 raw.2
    let probabilities := predictions.map (fun pred =>
      dictOf ((List.zip pred.1 pred.2).map (fun kv => (kv.1.drop clf.label.length, kv.2))))
    some (dataFrameFillna probabilities floorProb)
  | _, _ => none

/-- C4: a freshly constructed FastTextClassifier has never been fitted, so
both predict and predict_proba fail with the unfitted-model error (in the
source, the attribute access on the None model), for every choice of the
construction parameters and every input. -/
theorem c4_unfitted_predict_fails (lr : ℚ) (dim ws epoch minCount minCountLabel minn
    maxn neg wordNgrams : Nat) (loss : Str) (bucket thread lrUpdateRate : Nat)
    (t : ℚ) (label : Str) (verbose : Nat) (X : List (List Str)) :
    FastTextClassifier.predict
        (FastTextClassifier.mkNew lr dim ws epoch minCount minCountLabel minn maxn neg
          wordNgrams loss bucket thread lrUpdateRate t label verbose) X = none ∧
    FastTextClassifier.predict_proba
        (FastTextClassifier.mkNew lr dim ws epoch minCount minCountLabel minn maxn neg
          wordNgrams loss bucket thread lrUpdateRate t label verbose) X = none :=
  ⟨rfl, rfl⟩

theorem mapM_option_eq_some {α β : Type} (f : α → Option β) (g : α → β) (l : List α)
    (h : ∀ x ∈ l, f x = some (g x)) : l.mapM f = some (l.map g) := by
  rw [← List.mapM'_eq_mapM]
  induction l with
  | nil => rfl
  | cons x xs ih =>
    have hx := h x (List.mem_cons_self x xs)
    have hxs := ih (fun z hz => h z (List.mem_cons_of_mem x hz))
    simp [List.mapM', hx, hxs]

/-- C9: predict removes exactly the first len(label) characters from every
label string the external predictor returns, unconditionally: the result is
the length-based truncation even when a returned string is shorter than the
configured label marker or does not start with it, and no error is raised. -/
theorem c9_predict_strips_by_length (clf : FastTextClassifier) (m : ExtModel)
    (X : List (List Str)) (L : List (List Str)) (P : List (List ℚ))
    (hm : clf._model = some m)
    (hraw : m.predictRaw (X.map joinSp) 1 = (L, P))
    (hnonempty : ∀ pred ∈ L, pred ≠ []) :
    FastTextClassifier.predict clf X =
      some (L.map (fun pred => pred.headI.drop clf.label.length)) := by
  unfold FastTextClassifier.predict
  rw [hm]
  simp only [hraw]
  apply mapM_option_eq_some
  intro pred hpred
  cases hp : pred with
  | nil => exact absurd hp (hnonempty pred hpred)
  | cons s rest => simp

/-- Witness for C9: the external predictor returns the single candidate "x",
shorter than the configured marker and not starting with it; predict still
answers with the length-based truncation (here the empty string). -/
theorem c9_witness :
    FastTextClassifier.predict
        ⟨1/10, 100, 5, 5, 1, 0, 0, 0, 5, 1, strLit ("softmax"), 2000000, 12, 100,
          1/10000, strLit ("__label__"), 2,
          some ⟨fun _ _ => ([[strLit ("x")]], [[1]])⟩, some 1⟩
        [[strLit ("a")]] =
      some ([[strLit ("x")]].map (fun pred =>
        pred.headI.drop (strLit ("__label__")).length)) :=
  c9_predict_strips_by_length
    ⟨1/10, 100, 5, 5, 1, 0, 0, 0, 5, 1, strLit ("softmax"), 2000000, 12, 100,
      1/10000, strLit ("__label__"), 2,
      some ⟨fun _ _ => ([[strLit ("x")]], [[1]])⟩, some 1⟩
    ⟨fun _ _ => ([[strLit ("x")]], [[1]])⟩
    [[strLit ("a")]] [[strLit ("x")]] [[1]] rfl rfl (by decide)

/-- C2: fitting on X, y and then predicting on the same X returns exactly one
label per document, in input order, each the label-marker-stripped first
candidate of the trained model, and each drawn from the distinct values of y.
The hypotheses are the documented interface of the external library: the
trainer returns a handle, and for each of the len(X) documents that handle
returns exactly one candidate, formed of the configured label marker followed
by one of the classes occurring in y. -/
theorem c2_fit_then_predict (train : TrainFun) (clf : FastTextClassifier) (fs : FS)
    (X : List (List Str)) (y : List Str) (m : ExtModel) (L : List (List Str))
    (P : List (List ℚ))
    (hXlen : 1 ≤ X.length) (hylen : y.length = X.length)
    (hok : train clf ((fsRead (data_to_temp fs X clf.label (some y)).1
        (data_to_temp fs X clf.label (some y)).2).getD []) = Except.ok m)
    (hraw : m.predictRaw (X.map joinSp) 1 = (L, P))
    (hL : L.length = X.length)
    (hcand : ∀ i, i < L.length → ∃ c ∈ y, L.getD i [] = [clf.label ++ c]) :
    ∃ clf₁ fs₁,
      FastTextClassifier.fit train clf fs X y = (clf₁, fs₁, Except.ok ()) ∧
      ∃ preds, FastTextClassifier.predict clf₁ X = some preds ∧
        preds.length = X.length ∧
        (∀ i, i < X.length →
          preds.getD i [] = (L.getD i []).headI.drop clf.label.length ∧
          preds.getD i [] ∈ y) := by
  have hfit : FastTextClassifier.fit train clf fs X y =
      ({ clf with _num_classes := some (np_unique y).length, _model := some m },
        fsRemove (data_to_temp fs X clf.label (some y)).1
          (data_to_temp fs X clf.label (some y)).2,
        Except.ok ()) := by
    simp only [FastTextClassifier.fit]
    rw [hok]
  refine ⟨_, _, hfit, ?_⟩
  have hpred : FastTextClassifier.predict
      { clf with _num_classes := some (np_unique y).length, _model := some m } X =
      List.mapM (fun pred => (pred.head?).map (fun s => s.drop clf.label.length))
        ((m.predictRaw (X.map joinSp) 1).1) := rfl
  have hmapM := mapM_option_eq_some
    (fun pred => (pred.head?).map (fun s => s.drop clf.label.length))
    (fun pred => pred.headI.drop clf.label.length) L
    (fun pred hpred => by
      rcases List.mem_iff_getElem.mp hpred with ⟨i, hi, rfl⟩
      rcases hcand i hi with ⟨c, _, hc⟩
      rw [List.getD_eq_getElem L [] hi] at hc
      rw [hc]
      rfl)
  refine ⟨L.map (fun pred => pred.headI.drop clf.label.length), ?_, ?_, ?_⟩
  · rw [hpred, hraw]
    exact hmapM
  · simpa using hL
  · intro i hi
    have hiL : i < L.length := by omega
    have hgetD : (L.map (fun pred => pred.headI.drop clf.label.length)).getD i [] =
        (L.getD i []).headI.drop clf.label.length := by
      rw [List.getD_eq_getElem _ [] (by simpa using hiL), List.getElem_map,
        List.getD_eq_getElem L [] hiL]
    refine ⟨hgetD, ?_⟩
    rcases hcand i hiL with ⟨c, hcy, hc⟩
    rw [hgetD, hc]
    simpa [List.drop_left] using hcy

/-- C10: when the external trainer raises inside fit, the classifier state is
not rolled back atomically: _num_classes has already been overwritten with
the number of distinct labels of the new y, the corpus file written at the
start of the call is still on disk holding the serialized corpus, and _model
keeps its prior value (None or a previously trained handle). -/
theorem c10_fit_error_partial_state (train : TrainFun) (clf : FastTextClassifier)
    (fs : FS) (X : List (List Str)) (y : List Str) (e : Unit)
    (hwf : FS.WF fs)
    (herr : train clf ((fsRead (data_to_temp fs X clf.label (some y)).1
        (data_to_temp fs X clf.label (some y)).2).getD []) = Except.error e) :
    ∃ clf₁ fs₁,
      FastTextClassifier.fit train clf fs X y = (clf₁, fs₁, Except.error e) ∧
      clf₁._num_classes = some (np_unique y).length ∧
      clf₁._model = clf._model ∧
      fsRead fs₁ (data_to_temp fs X clf.label (some y)).2 =
        some (corpusContent X clf.label (some y)) := by
  have hfit : FastTextClassifier.fit train clf fs X y =
      ({ clf with _num_classes := some (np_unique y).length },
        (data_to_temp fs X clf.label (some y)).1, Except.error e) := by
    simp only [FastTextClassifier.fit]
    rw [herr]
  exact ⟨_, _, hfit, rfl, rfl, fsRead_data_to_temp fs X clf.label (some y) hwf⟩

/-- C6: a successful fit deletes its transient corpus file before returning:
the file system fit leaves behind holds exactly the files it held before the
call, and reading the corpus path afterwards fails, so no corpus file created
by fit outlives the call. -/
theorem c6_fit_deletes_corpus_file (train : TrainFun) (clf : FastTextClassifier)
    (fs : FS) (X : List (List Str)) (y : List Str) (hwf : FS.WF fs)
    (clf₁ : FastTextClassifier) (fs₁ : FS)
    (hfit : FastTextClassifier.fit train clf fs X y = (clf₁, fs₁, Except.ok ())) :
    fs₁.files = fs.files ∧
    fsRead fs₁ (data_to_temp fs X clf.label (some y)).2 = none := by
  cases htr : train clf ((fsRead (data_to_temp fs X clf.label (some y)).1
      (data_to_temp fs X clf.label (some y)).2).getD []) with
  | error e =>
    have heq : FastTextClassifier.fit train clf fs X y =
        ({ clf with _num_classes := some (np_unique y).length },
          (data_to_temp fs X clf.label (some y)).1, Except.error e) := by
      simp only [FastTextClassifier.fit]
      rw [htr]
    rw [heq] at hfit
    simp at hfit
  | ok m =>
    have heq : FastTextClassifier.fit train clf fs X y =
        ({ clf with _num_classes := some (np_unique y).length, _model := some m },
          fsRemove (data_to_temp fs X clf.label (some y)).1
            (data_to_temp fs X clf.label (some y)).2,
          Except.ok ()) := by
      simp only [FastTextClassifier.fit]
      rw [htr]
    rw [heq] at hfit
    have hfs : fs₁ = fsRemove (data_to_temp fs X clf.label (some y)).1
        (data_to_temp fs X clf.label (some y)).2 := by
      have hc := congrArg (fun z => z.2.1) hfit
      simpa using hc.symm
    constructor
    · rw [hfs]
      exact fsRemove_fsWrite_mkstemp fs (corpusContent X clf.label (some y)) hwf
    · rw [hfs]
      exact fsRead_fsRemove_self _ _

/-- Concrete two-document corpus used by witnesses. -/
def XW : List (List Str) := [[strLit ("a"), strLit ("b")], [strLit ("c")]]

/-- Concrete labels parallel to XW. -/
def YW : List Str := [strLit ("1"), strLit ("2")]

/-- Concrete trained handle: one candidate per document. -/
def mW : ExtModel :=
  ⟨fun _ _ => ([[strLit ("__label__1")], [strLit ("__label__2")]], [[1], [1]])⟩

/-- Concrete trainer that always succeeds with mW. -/
def trainW : TrainFun := fun _ _ => Except.ok mW

/-- Concrete trainer that always raises. -/
def trainFailW : TrainFun := fun _ _ => Except.error ()

/-- Concrete unfitted classifier with the default configuration. -/
def clfW : FastTextClassifier :=
  ⟨1/10, 100, 5, 5, 1, 0, 0, 0, 5, 1, strLit ("softmax"), 2000000, 12, 100,
    1/10000, strLit ("__label__"), 2, none, none⟩

/-- Witness for C2: fit with a conforming backend on the two-document corpus
and predict on the same documents. -/
theorem c2_witness :
    ∃ clf₁ fs₁,
      FastTextClassifier.fit trainW clfW ⟨[], 0⟩ XW YW = (clf₁, fs₁, Except.ok ()) ∧
      ∃ preds, FastTextClassifier.predict clf₁ XW = some preds ∧
        preds.length = XW.length ∧
        (∀ i, i < XW.length →
          preds.getD i [] =
            (([[strLit ("__label__1")], [strLit ("__label__2")]] :
              List (List Str)).getD i []).headI.drop clfW.label.length ∧
          preds.getD i [] ∈ YW) :=
  c2_fit_then_predict trainW clfW ⟨[], 0⟩ XW YW mW
    [[strLit ("__label__1")], [strLit ("__label__2")]] [[1], [1]]
    (by decide) (by decide) rfl rfl (by decide) (by decide)

/-- Witness for C10: the failing trainer leaves _num_classes updated, _model
unchanged and the corpus file on disk. -/
theorem c10_witness :
    ∃ clf₁ fs₁,
      FastTextClassifier.fit trainFailW clfW ⟨[], 0⟩ XW YW =
        (clf₁, fs₁, Except.error ()) ∧
      clf₁._num_classes = some (np_unique YW).length ∧
      clf₁._model = clfW._model ∧
      fsRead fs₁ (data_to_temp ⟨[], 0⟩ XW clfW.label (some YW)).2 =
        some (corpusContent XW clfW.label (some YW)) :=
  c10_fit_error_partial_state trainFailW clfW ⟨[], 0⟩ XW YW ()
    (by intro e he; simp at he) rfl

/-- The classifier state after the witness fit. -/
def clf1W : FastTextClassifier :=
  { clfW with _num_classes := some 2, _model := some mW }

/-- Witness for C6: after the successful witness fit, the file system is back
to its initial (empty) file list and the corpus path reads as absent. -/
theorem c6_witness :
    (⟨[], 1⟩ : FS).files = (⟨[], 0⟩ : FS).files ∧
    fsRead ⟨[], 1⟩ (data_to_temp ⟨[], 0⟩ XW clfW.label (some YW)).2 = none :=
  c6_fit_deletes_corpus_file trainW clfW ⟨[], 0⟩ XW YW
    (by intro e he; simp at he) clf1W ⟨[], 1⟩ rfl

theorem mem_keys_dictUpdate (d : List (Str × ℚ)) (k : Str) (v : ℚ) (x : Str) :
    x ∈ (dictUpdate d k v).map Prod.fst ↔ x ∈ d.map Prod.fst ∨ x = k := by
  unfold dictUpdate
  by_cases hk : (d.map Prod.fst).contains k
  · rw [if_pos hk]
    have hkeys : (d.map (fun p => if p.1 = k then (p.1, v) else p)).map Prod.fst =
        d.map Prod.fst := by
      rw [List.map_map]
      apply List.map_congr_left
      intro p _
      by_cases hp : p.1 = k <;> simp [hp]
    rw [hkeys]
    constructor
    · exact fun h => Or.inl h
    · rintro (h | rfl)
      · exact h
      · simpa using hk
  · rw [if_neg hk]
    simp [List.map_append]

theorem mem_keys_dictOf_aux (ps : List (Str × ℚ)) (acc : List (Str × ℚ)) (x : Str) :
    x ∈ (ps.foldl (fun d p => dictUpdate d p.1 p.2) acc).map Prod.fst ↔
      x ∈ acc.map Prod.fst ∨ x ∈ ps.map Prod.fst := by
  induction ps generalizing acc with
  | nil => simp
  | cons p ps ih =>
    rw [List.foldl_cons, ih, mem_keys_dictUpdate]
    simp only [List.map_cons, List.mem_cons]
    tauto

theorem mem_keys_dictOf (ps : List (Str × ℚ)) (x : Str) :
    x ∈ (dictOf ps).map Prod.fst ↔ x ∈ ps.map Prod.fst := by
  unfold dictOf
  rw [mem_keys_dictOf_aux]
  simp

theorem dictGet_eq_none_iff (d : List (Str × ℚ)) (k : Str) :
    dictGet d k = none ↔ k ∉ d.map Prod.fst := by
  unfold dictGet
  rw [Option.map_eq_none', List.find?_eq_none]
  constructor
  · intro h hk
    rcases List.mem_map.mp hk with ⟨p, hp, rfl⟩
    exact (by simpa using h p hp : p.1 ≠ p.1) rfl
  · intro h p hp
    simp only [decide_eq_true_eq]
    intro hpk
    exact h (List.mem_map.mpr ⟨p, hp, hpk⟩)

theorem mem_addCol (acc : List Str) (k x : Str) :
    x ∈ addCol acc k ↔ x ∈ acc ∨ x = k := by
  unfold addCol
  by_cases hk : acc.contains k
  · rw [if_pos hk]
    constructor
    · exact fun h => Or.inl h
    · rintro (h | rfl)
      · exact h
      · simpa using hk
  · rw [if_neg hk]
    simp

theorem mem_foldl_addCol (ks : List Str) (acc : List Str) (x : Str) :
    x ∈ ks.foldl addCol acc ↔ x ∈ acc ∨ x ∈ ks := by
  induction ks generalizing acc with
  | nil => simp
  | cons k ks ih =>
    rw [List.foldl_cons, ih, mem_addCol]
    simp only [List.mem_cons]
    tauto

theorem mem_dfColumns_aux (dicts : List (List (Str × ℚ))) (acc : List Str) (x : Str) :
    x ∈ dicts.foldl (fun a d => (d.map Prod.fst).foldl addCol a) acc ↔
      x ∈ acc ∨ ∃ d ∈ dicts, x ∈ d.map Prod.fst := by
  induction dicts generalizing acc with
  | nil => simp
  | cons d dicts ih =>
    rw [List.foldl_cons, ih, mem_foldl_addCol]
    constructor
    · rintro ((h | h) | h)
      · exact Or.inl h
      · exact Or.inr ⟨d, List.mem_cons_self d dicts, h⟩
      · rcases h with ⟨u, hu, hx⟩
        exact Or.inr ⟨u, List.mem_cons_of_mem d hu, hx⟩
    · rintro (h | ⟨u, hu, hx⟩)
      · exact Or.inl (Or.inl h)
      · rcases List.mem_cons.mp hu with rfl | hu₂
        · exact Or.inl (Or.inr hx)
        · exact Or.inr ⟨u, hu₂, hx⟩

theorem mem_dfColumns (dicts : List (List (Str × ℚ))) (x : Str) :
    x ∈ dfColumns dicts ↔ ∃ d ∈ dicts, x ∈ d.map Prod.fst := by
  unfold dfColumns
  rw [mem_dfColumns_aux]
  simp

/-- C3: for a fitted model, predict_proba returns a table with one row per
input document whose columns are exactly the union of the label-marker-
stripped labels the external predictor returned across the documents of this
call, and every entry of a row whose document's prediction does not contain
that column's label equals the floor constant 1e-10 rather than zero or an
error.  The hypotheses state the shape contract of the external batch
predict: one candidate list and one probability list per document, of equal
per-document lengths. -/
theorem c3_predict_proba_table (clf : FastTextClassifier) (m : ExtModel) (k : Nat)
    (X : List (List Str)) (L : List (List Str)) (P : List (List ℚ))
    (hm : clf._model = some m) (hk : clf._num_classes = some k)
    (hraw : m.predictRaw (X.map joinSp) k = (L, P))
    (hL : L.length = X.length) (hP : P.length = X.length)
    (hlen : ∀ i, i < X.length → (L.getD i []).length = (P.getD i []).length) :
    ∃ fr, FastTextClassifier.predict_proba clf X = some fr ∧
      fr.rows.length = X.length ∧
      (∀ c, c ∈ fr.cols ↔ ∃ i, i < X.length ∧
        c ∈ (L.getD i []).map (fun s => s.drop clf.label.length)) ∧
      (∀ i j, i < X.length → j < fr.cols.length →
        fr.cols.getD j [] ∉ (L.getD i []).map (fun s => s.drop clf.label.length) →
        (fr.rows.getD i []).getD j 0 = floorProb) := by
  have hcall : FastTextClassifier.predict_proba clf X =
      some (dataFrameFillna ((List.zip L P).map (fun pred =>
        dictOf ((List.zip pred.1 pred.2).map
          (fun kv => (kv.1.drop clf.label.length, kv.2))))) floorProb) := by
    unfold FastTextClassifier.predict_proba
    rw [hm, hk]
    simp only [hraw]
  set dicts := (List.zip L P).map (fun pred =>
    dictOf ((List.zip pred.1 pred.2).map
      (fun kv => (kv.1.drop clf.label.length, kv.2)))) with hdicts
  have hzlen : (List.zip L P).length = X.length := by
    rw [List.length_zip, hL, hP]
    omega
  have hdlen : dicts.length = X.length := by
    rw [hdicts, List.length_map, hzlen]
  have hkeys : ∀ i, i < X.length → ∀ x : Str,
      (x ∈ (dicts.getD i []).map Prod.fst ↔
        x ∈ (L.getD i []).map (fun s => s.drop clf.label.length)) := by
    intro i hi x
    have hiL : i < L.length := by omega
    have hiP : i < P.length := by omega
    have hd : dicts.getD i [] = dictOf ((List.zip (L.getD i []) (P.getD i [])).map
        (fun kv => (kv.1.drop clf.label.length, kv.2))) := by
      rw [hdicts, List.getD_eq_getElem _ [] (by rw [← hdicts]; omega), List.getElem_map,
        List.getElem_zip, List.getD_eq_getElem L [] hiL,
        List.getD_eq_getElem P [] hiP]
    rw [hd, mem_keys_dictOf]
    have h1 : ((List.zip (L.getD i []) (P.getD i [])).map
        (fun kv => (kv.1.drop clf.label.length, kv.2))).map Prod.fst =
        ((List.zip (L.getD i []) (P.getD i [])).map Prod.fst).map
          (fun s => s.drop clf.label.length) := by
      simp [List.map_map, Function.comp]
    rw [h1, List.map_fst_zip _ _ (le_of_eq (hlen i hi))]
  refine ⟨dataFrameFillna dicts floorProb, hcall, ?_, ?_, ?_⟩
  · show (dicts.map _).length = X.length
    rw [List.length_map, hdlen]
  · intro c
    show c ∈ dfColumns dicts ↔ _
    rw [mem_dfColumns]
    constructor
    · rintro ⟨d, hd, hc⟩
      rcases List.mem_iff_getElem.mp hd with ⟨i, hi, rfl⟩
      have hiX : i < X.length := by omega
      refine ⟨i, hiX, ?_⟩
      apply (hkeys i hiX c).mp
      rw [List.getD_eq_getElem dicts [] hi]
      exact hc
    · rintro ⟨i, hi, hc⟩
      exact ⟨dicts.getD i [], getD_mem dicts i [] (by omega),
        (hkeys i hi c).mpr hc⟩
  · intro i j hi hj hnot
    have hiD : i < dicts.length := by omega
    have hrow : (dataFrameFillna dicts floorProb).rows.getD i [] =
        (dfColumns dicts).map
          (fun key => (dictGet (dicts.getD i []) key).getD floorProb) := by
      show (dicts.map _).getD i [] = _
      rw [List.getD_eq_getElem _ [] (by simpa using hiD), List.getElem_map,
        List.getD_eq_getElem dicts [] hiD]
    have hjc : j < (dfColumns dicts).length := hj
    have hcolj : (dataFrameFillna dicts floorProb).cols.getD j [] =
        (dfColumns dicts).getD j [] := rfl
    rw [hrow, List.getD_eq_getElem _ 0 (by simpa using hjc), List.getElem_map]
    have hnone : dictGet (dicts.getD i []) ((dfColumns dicts)[j]) = none := by
      rw [dictGet_eq_none_iff]
      intro hmem
      apply hnot
      have hc := (hkeys i hi _).mp hmem
      rw [hcolj, List.getD_eq_getElem _ [] hjc]
      exact hc
    rw [hnone]
    rfl

/-- Concrete trained handle for the predict_proba witness: two candidates for
the first document, one for the second. -/
def mProbaW : ExtModel :=
  ⟨fun _ _ => ([[strLit ("__label__1"), strLit ("__label__2")], [strLit ("__label__1")]],
    [[1/2, 1/2], [1]])⟩

/-- Concrete fitted classifier for the predict_proba witness. -/
def clfProbaW : FastTextClassifier :=
  { clfW with _model := some mProbaW, _num_classes := some 2 }

/-- Witness for C3: the second document's prediction omits the label "2", so
its entry in that column is the floor constant. -/
theorem c3_witness :
    ∃ fr, FastTextClassifier.predict_proba clfProbaW XW = some fr ∧
      fr.rows.length = XW.length ∧
      (∀ c, c ∈ fr.cols ↔ ∃ i, i < XW.length ∧
        c ∈ (([[strLit ("__label__1"), strLit ("__label__2")], [strLit ("__label__1")]] :
          List (List Str)).getD i []).map
            (fun s => s.drop clfProbaW.label.length)) ∧
      (∀ i j, i < XW.length → j < fr.cols.length →
        fr.cols.getD j [] ∉
          (([[strLit ("__label__1"), strLit ("__label__2")], [strLit ("__label__1")]] :
            List (List Str)).getD i []).map
              (fun s => s.drop clfProbaW.label.length) →
        (fr.rows.getD i []).getD j 0 = floorProb) :=
  c3_predict_proba_table clfProbaW mProbaW 2 XW
    [[strLit ("__label__1"), strLit ("__label__2")], [strLit ("__label__1")]]
    [[1/2, 1/2], [1]] rfl rfl rfl (by decide) (by decide) (by decide)

/-- External save_softmax output: the text the library writes for a given
trained handle, opaque to the adapter. -/
abbrev SoftmaxFun := ExtModel → Str

/-- State of FastTextModel (fasttext.py lines 129-191, plus the fitted flag
and class list owned by the RedditModel base): the wrapped classifier, the
recorded class list, the parsed class-embedding table and the fitted flag.
Table cells keep the raw whitespace-delimited fields; the adapter performs no
arithmetic on them. -/
structure FastTextModel where
  random_state : Nat
  model_type : Str
  _model : FastTextClassifier
  _classes : Option (List Str)
  class_embeddings : Option (List (Str × List Str))
  fitted : Bool

/-- One parsed line under pandas read_csv with delimiter a single space:
consecutive delimiters produce empty fields, which read as missing values. -/
def splitFields (line : Str) : List (Option Str) :=
  (splitOnChar ' ' line).map (fun f => if f = [] then none else some f)

/-- Width of a parsed table: the longest row. -/
def tableWidth (t : List (List (Option Str))) : Nat :=
  (t.map List.length).foldr max 0

/-- Columns kept by dropna(axis=1): the indices where every row of the table
holds a value (pandas pads short rows with missing values). -/
def keepCols (t : List (List (Option Str))) : List Nat :=
  (List.range (tableWidth t)).filter (fun j => t.all (fun r => (r.getD j none).isSome))

/-- Parse of the softmax export (fasttext.py lines 184-187): skip the first
line, split each remaining line at single spaces, drop every column holding a
missing value, strip the label marker off the first column and use it as the
row key.  none models the KeyError of set_index(0) when column 0 itself was
dropped. -/
def parseEmbeddings (content : Str) (label : Str) : Option (List (Str × List Str)) :=
  let table := ((pyLines content).drop 1).map splitFields
  let keep := keepCols table
  if 0 ∈ keep then
    some (table.map (fun r =>
      ((keep.map (fun j => (r.getD j none).getD [])).headI.drop label.length,
        (keep.map (fun j => (r.getD j none).getD [])).tail)))
  else none

/-- FastTextModel.fit (fasttext.py lines 164-191): record the sorted distinct
label set, fit the inner classifier, export the softmax table to a fresh temp
file, parse it into the class-embedding table, delete the file, set the
fitted flag and return the updated model (the Python method mutates and
returns self).  The Except component propagates a trainer failure, in which
case the remaining steps do not run, or a parse failure. -/
def FastTextModel.fit (train : TrainFun) (softmax : SoftmaxFun) (mdl : FastTextModel)
    (fs : FS) (X : List (List Str)) (y : List Str) :
    FastTextModel × FS × Except Unit Unit :=
  let mdl₁ := { mdl with _classes := some (np_unique y) }
  match FastTextClassifier.fit train mdl._model fs X y with
  | (clf₁, fs₁, Except.error e) => ({ mdl₁ with _model := clf₁ }, fs₁, Except.error e)
  | (clf₁, fs₁, Except.ok _) =>
    match clf₁._model with
    | none => ({ mdl₁ with _model := clf₁ }, fs₁, Except.error ())
    | some m =>
      let path := (mkstemp fs₁).2
      let fs₂ := fsWrite (mkstemp fs₁).1 path (softmax m)
      match parseEmbeddings ((fsRead fs₂ path).getD []) clf₁.label with
      | none => ({ mdl₁ with _model := clf₁ }, fs₂, Except.error ())
      | some emb =>
        ({ mdl₁ with _model := clf₁, class_embeddings := some emb, fitted := true },
          fsRemove fs₂ path, Except.ok ())

theorem np_unique_sorted (y : List Str) : (np_unique y).Sorted (· ≤ ·) :=
  List.sorted_insertionSort (· ≤ ·) y.dedup

theorem np_unique_perm (y : List Str) : (np_unique y).Perm y.dedup :=
  List.perm_insertionSort (· ≤ ·) y.dedup

theorem np_unique_nodup (y : List Str) : (np_unique y).Nodup :=
  ((np_unique_perm y).nodup_iff).mpr (List.nodup_dedup y)

theorem np_unique_mem (y : List Str) (a : Str) : a ∈ np_unique y ↔ a ∈ y := by
  rw [(np_unique_perm y).mem_iff, List.mem_dedup]

/-- C5: after a successful FastTextModel.fit the model stores in _classes the
sorted distinct label set of y (lexicographically sorted, duplicate-free,
holding exactly the values occurring in y), its fitted flag is True, and the
returned object is the fitted model itself: the call mutates and returns
self, so the configuration fields are untouched. -/
theorem c5_model_fit_records_classes (train : TrainFun) (softmax : SoftmaxFun)
    (mdl : FastTextModel) (fs : FS) (X : List (List Str)) (y : List Str)
    (hylen : y.length = X.length) (hy : 1 ≤ X.length)
    (mdl₁ : FastTextModel) (fs₁ : FS)
    (hfit : FastTextModel.fit train softmax mdl fs X y = (mdl₁, fs₁, Except.ok ())) :
    (∃ cs, mdl₁._classes = some cs ∧ cs.Sorted (· ≤ ·) ∧ cs.Nodup ∧
      (∀ a, a ∈ cs ↔ a ∈ y)) ∧
    mdl₁.fitted = true ∧
    mdl₁.model_type = mdl.model_type ∧ mdl₁.random_state = mdl.random_state := by
  rcases hcf : FastTextClassifier.fit train mdl._model fs X y with ⟨clfA, fsA, exc⟩
  simp only [FastTextModel.fit] at hfit
  rw [hcf] at hfit
  cases exc with
  | error e => simp at hfit
  | ok u =>
    cases u
    simp only [] at hfit
    cases hm : clfA._model with
    | none =>
      rw [hm] at hfit
      simp at hfit
    | some m =>
      rw [hm] at hfit
      simp only [] at hfit
      cases hp : parseEmbeddings
          ((fsRead (fsWrite (mkstemp fsA).1 (mkstemp fsA).2 (softmax m))
            (mkstemp fsA).2).getD []) clfA.label with
      | none =>
        rw [hp] at hfit
        simp at hfit
      | some emb =>
        rw [hp] at hfit
        simp only [] at hfit
        rw [Prod.ext_iff, Prod.ext_iff] at hfit
        obtain ⟨hmdl, _, _⟩ := hfit
        subst hmdl
        exact ⟨⟨np_unique y, rfl, np_unique_sorted y, np_unique_nodup y,
          fun a => np_unique_mem y a⟩, rfl, rfl, rfl⟩

/-- Concrete softmax export for witnesses: a header line and one row per
class, each row ending in a trailing space (an all-empty column, as the real
export produces), newline-terminated. -/
def softmaxW : SoftmaxFun := fun _ =>
  strLit ("2 2") ++ [nl] ++ strLit ("__label__1 1 2 ") ++ [nl] ++
    strLit ("__label__2 3 4 ") ++ [nl]

/-- Concrete FastTextModel before fitting. -/
def mdlW : FastTextModel :=
  ⟨24, strLit ("fasttext"), clfW, none, none, false⟩

/-- Concrete FastTextModel after the witness fit. -/
def mdl1W : FastTextModel :=
  { mdlW with
    _classes := some [strLit ("1"), strLit ("2")],
    _model := clf1W,
    class_embeddings := some
      [(strLit ("1"), [strLit ("1"), strLit ("2")]),
        (strLit ("2"), [strLit ("3"), strLit ("4")])],
    fitted := true }

/-- Witness for C5: the fitted witness model records the sorted distinct
label set and the fitted flag. -/
theorem c5_witness :
    (∃ cs, mdl1W._classes = some cs ∧ cs.Sorted (· ≤ ·) ∧ cs.Nodup ∧
      (∀ a, a ∈ cs ↔ a ∈ YW)) ∧
    mdl1W.fitted = true ∧
    mdl1W.model_type = mdlW.model_type ∧ mdl1W.random_state = mdlW.random_state :=
  c5_model_fit_records_classes trainW softmaxW mdlW ⟨[], 0⟩ XW YW (by decide)
    (by decide) mdl1W ⟨[], 2⟩ (by rfl)

theorem filter_range_head (n : Nat) (p : Nat → Bool) (hn : 0 < n) (hp : p 0 = true) :
    ∃ ks, (List.range n).filter p = 0 :: ks := by
  cases n with
  | zero => omega
  | succ n' =>
    rw [List.range_succ_eq_map, List.filter_cons]
    simp only [hp]
    exact ⟨_, rfl⟩

/-- Parse shape of a well-formed two-row softmax export: a header line and
one line per class, both starting with the marker-prefixed class and with
identical present-or-missing column patterns, parse to a two-row table keyed
by the bare class names, with the same number of value columns in each row. -/
theorem parseEmbeddings_two_rows (content lab c₁ c₂ hdr ℓ₁ ℓ₂ : Str)
    (t₁ t₂ : List (Option Str))
    (hlines : pyLines content = [hdr, ℓ₁, ℓ₂])
    (hf₁ : splitFields ℓ₁ = some (lab ++ c₁) :: t₁)
    (hf₂ : splitFields ℓ₂ = some (lab ++ c₂) :: t₂)
    (hshape : t₁.map Option.isSome = t₂.map Option.isSome) :
    ∃ v₁ v₂, parseEmbeddings content lab = some [(c₁, v₁), (c₂, v₂)] ∧
      v₁.length = v₂.length := by
  have htable : ((pyLines content).drop 1).map splitFields =
      [some (lab ++ c₁) :: t₁, some (lab ++ c₂) :: t₂] := by
    rw [hlines]
    simp [hf₁, hf₂]
  have hw : 0 < tableWidth [some (lab ++ c₁) :: t₁, some (lab ++ c₂) :: t₂] := by
    simp [tableWidth]
  have hp0 : (([some (lab ++ c₁) :: t₁, some (lab ++ c₂) :: t₂] :
      List (List (Option Str))).all (fun r => (r.getD 0 none).isSome)) = true := by
    simp [List.getD]
  obtain ⟨ks, hks⟩ := filter_range_head
    (tableWidth [some (lab ++ c₁) :: t₁, some (lab ++ c₂) :: t₂])
    (fun j => ([some (lab ++ c₁) :: t₁, some (lab ++ c₂) :: t₂] :
      List (List (Option Str))).all (fun r => (r.getD j none).isSome)) hw hp0
  have hkeep : keepCols [some (lab ++ c₁) :: t₁, some (lab ++ c₂) :: t₂] = 0 :: ks :=
    hks
  refine ⟨ks.map (fun j => (((some (lab ++ c₁) :: t₁).getD j none).getD [])),
    ks.map (fun j => (((some (lab ++ c₂) :: t₂).getD j none).getD [])), ?_, by simp⟩
  simp only [parseEmbeddings]
  rw [htable, hkeep]
  rw [if_pos (List.mem_cons_self 0 ks)]
  simp [List.getD, List.drop_left]

theorem WF_mkstemp (fs : FS) (h : FS.WF fs) : FS.WF (mkstemp fs).1 := by
  intro e he
  simp only [mkstemp] at he ⊢
  rcases List.mem_append.mp he with h₁ | h₂
  · exact Nat.lt_succ_of_lt (h e h₁)
  · rcases List.mem_singleton.mp h₂ with rfl
    simp

theorem WF_fsWrite (fs : FS) (p : Nat) (s : Str) (h : FS.WF fs) :
    FS.WF (fsWrite fs p s) := by
  intro e he
  simp only [fsWrite] at he ⊢
  rcases List.mem_map.mp he with ⟨u, hu, rfl⟩
  by_cases hup : u.1 = p
  · simp only [hup, if_pos rfl]
    exact hup ▸ h u hu
  · simp only [if_neg hup]
    exact h u hu

theorem WF_fsRemove (fs : FS) (p : Nat) (h : FS.WF fs) : FS.WF (fsRemove fs p) := by
  intro e he
  simp only [fsRemove] at he ⊢
  exact h e (List.mem_of_mem_filter he)

theorem WF_data_to_temp (fs : FS) (X : List (List Str)) (label : Str)
    (y : Option (List Str)) (h : FS.WF fs) : FS.WF (data_to_temp fs X label y).1 :=
  WF_fsWrite _ _ _ (WF_mkstemp fs h)

/-- C8: after FastTextModel.fit on data with exactly two distinct labels, the
class_embeddings table parsed from the softmax export (skipping the header
row, dropping columns with missing values, stripping the label marker from
the first column and keying rows by it) has exactly two rows, keyed by the
two bare label strings, with the same number of columns in both rows.  The
hypotheses state the documented export format: a header line, one
whitespace-delimited row per class starting with the marker-prefixed class
name, and a present-or-missing column pattern common to both rows. -/
theorem c8_two_class_embeddings (train : TrainFun) (softmax : SoftmaxFun)
    (mdl : FastTextModel) (fs : FS) (X : List (List Str)) (y : List Str)
    (c₁ c₂ : Str) (hwf : FS.WF fs)
    (hclasses : np_unique y = [c₁, c₂])
    (hsm : ∀ mm : ExtModel, ∃ hdr ℓ₁ ℓ₂ t₁ t₂,
        pyLines (softmax mm) = [hdr, ℓ₁, ℓ₂] ∧
        splitFields ℓ₁ = some (mdl._model.label ++ c₁) :: t₁ ∧
        splitFields ℓ₂ = some (mdl._model.label ++ c₂) :: t₂ ∧
        List.map Option.isSome t₁ = List.map Option.isSome t₂)
    (mdl₁ : FastTextModel) (fs₁ : FS)
    (hfit : FastTextModel.fit train softmax mdl fs X y = (mdl₁, fs₁, Except.ok ())) :
    ∃ tbl, mdl₁.class_embeddings = some tbl ∧
      tbl.map Prod.fst = [c₁, c₂] ∧ tbl.length = 2 ∧
      (∀ r₁ ∈ tbl, ∀ r₂ ∈ tbl, r₁.2.length = r₂.2.length) := by
  cases htr : train mdl._model ((fsRead (data_to_temp fs X mdl._model.label (some y)).1
      (data_to_temp fs X mdl._model.label (some y)).2).getD []) with
  | error e =>
    have hcf : FastTextClassifier.fit train mdl._model fs X y =
        ({ mdl._model with _num_classes := some (np_unique y).length },
          (data_to_temp fs X mdl._model.label (some y)).1, Except.error e) := by
      simp only [FastTextClassifier.fit]
      rw [htr]
    simp only [FastTextModel.fit] at hfit
    rw [hcf] at hfit
    simp at hfit
  | ok m =>
    have hcf : FastTextClassifier.fit train mdl._model fs X y =
        ({ mdl._model with
            _num_classes := some (np_unique y).length, _model := some m },
          fsRemove (data_to_temp fs X mdl._model.label (some y)).1
            (data_to_temp fs X mdl._model.label (some y)).2,
          Except.ok ()) := by
      simp only [FastTextClassifier.fit]
      rw [htr]
    simp only [FastTextModel.fit] at hfit
    rw [hcf] at hfit
    simp only [] at hfit
    set fsA := fsRemove (data_to_temp fs X mdl._model.label (some y)).1
      (data_to_temp fs X mdl._model.label (some y)).2 with hfsA
    have hwfA : FS.WF fsA :=
      WF_fsRemove _ _ (WF_data_to_temp fs X mdl._model.label (some y) hwf)
    have hcontent : fsRead (fsWrite (mkstemp fsA).1 (mkstemp fsA).2 (softmax m))
        (mkstemp fsA).2 = some (softmax m) := by
      rw [fsRead_fsWrite_self, fsRead_mkstemp fsA hwfA]
      rfl
    obtain ⟨hdr, ℓ₁, ℓ₂, t₁, t₂, hlines, hf₁, hf₂, hshape⟩ := hsm m
    obtain ⟨v₁, v₂, hparse, hvlen⟩ := parseEmbeddings_two_rows (softmax m)
      mdl._model.label c₁ c₂ hdr ℓ₁ ℓ₂ t₁ t₂ hlines hf₁ hf₂ hshape
    rw [hcontent] at hfit
    simp only [Option.getD_some] at hfit
    rw [hparse] at hfit
    simp only [] at hfit
    rw [Prod.ext_iff, Prod.ext_iff] at hfit
    obtain ⟨hmdl, _, _⟩ := hfit
    subst hmdl
    refine ⟨[(c₁, v₁), (c₂, v₂)], rfl, by simp, rfl, ?_⟩
    intro r₁ h₁ r₂ h₂
    rcases List.mem_cons.mp h₁ with rfl | h₁'
    · rcases List.mem_cons.mp h₂ with rfl | h₂'
      · rfl
      · rcases List.mem_singleton.mp h₂' with rfl
        exact hvlen
    · rcases List.mem_singleton.mp h₁' with rfl
      rcases List.mem_cons.mp h₂ with rfl | h₂'
      · exact hvlen.symm
      · rcases List.mem_singleton.mp h₂' with rfl
        rfl

/-- Witness for C8: the witness fit on two-label data yields the two-row
embedding table keyed by the bare labels, with two value columns per row. -/
theorem c8_witness :
    ∃ tbl, mdl1W.class_embeddings = some tbl ∧
      tbl.map Prod.fst = [strLit ("1"), strLit ("2")] ∧ tbl.length = 2 ∧
      (∀ r₁ ∈ tbl, ∀ r₂ ∈ tbl, r₁.2.length = r₂.2.length) :=
  c8_two_class_embeddings trainW softmaxW mdlW ⟨[], 0⟩ XW YW
    (strLit ("1")) (strLit ("2"))
    (by intro e he; simp at he) (by decide)
    (fun mm => ⟨strLit ("2 2"), strLit ("__label__1 1 2 "), strLit ("__label__2 3 4 "),
      [some (strLit ("1")), some (strLit ("2")), none],
      [some (strLit ("3")), some (strLit ("4")), none],
      by simp only [softmaxW]; decide, by decide, by decide, by decide⟩)
    mdl1W ⟨[], 2⟩ rfl
